import Mathlib

/-!
Verification of the response-normalization and content-rendering layer of
`mailtm-cli-py.py` (a Mail.tm command-line client).

The Python source is shallowly embedded: decoded JSON values become the
inductive type `JVal`; Python truthiness, `dict.get`, `or`-defaulting,
`str.strip`, string formatting, the regex rewrite passes of
`_simplify_html`, and `sorted(..., key=..., reverse=True)` become
executable Lean functions.  Operations that can raise a Python exception
on some inputs are modelled in `Except Unit`, with `.error ()` standing
for a raised exception.
-/

set_option maxHeartbeats 1000000

namespace MailTm

/-- A decoded JSON value, as produced by `resp.json()` in the Python source.
Numbers are modelled as integers (the Mail.tm payload fields used by the
core layer are integral); `obj` keeps the key/value pairs in order with
first-key-wins lookup, matching insertion-ordered Python dicts. -/
inductive JVal where
  | null
  | bool (b : Bool)
  | num (n : Int)
  | str (s : String)
  | arr (xs : List JVal)
  | obj (fields : List (String × JVal))
deriving Repr, Inhabited

/-- Python truthiness (`bool(v)`) for JSON-shaped values:
`None`, `False`, `0`, `""`, `[]`, and the empty dict are falsy. -/
def truthy : JVal → Bool
  | .null => false
  | .bool b => b
  | .num n => n != 0
  | .str s => s != ""
  | .arr xs => !xs.isEmpty
  | .obj kvs => !kvs.isEmpty

/-- Python `a or b`: `a` when `a` is truthy, otherwise `b`. -/
def pyOr (a b : JVal) : JVal := if truthy a then a else b

/-- First-match association-list lookup, modelling a Python dict lookup. -/
def lookupField : List (String × JVal) → String → Option JVal
  | [], _ => none
  | (k, v) :: rest, key => if k = key then some v else lookupField rest key

/-- `d.get(key)` on a mapping: the stored value, or `None` when the key is
absent.  The source only applies `.get` to values already known to be
dicts; the non-mapping case is never exercised. -/
def jGet (v : JVal) (key : String) : JVal :=
  match v with
  | .obj kvs => (lookupField kvs key).getD .null
  | _ => .null

/-- The characters removed by Python `str.strip()` (ASCII whitespace). -/
def pyIsSpace (c : Char) : Bool :=
  c = ' ' || c = '\t' || c = '\n' || c = '\r' || c = '\x0b' || c = '\x0c'

/-- Python `str.strip()` on a character list. -/
def pyStripChars (cs : List Char) : List Char :=
  ((cs.dropWhile pyIsSpace).reverse.dropWhile pyIsSpace).reverse

/-- Python `str.strip()`. -/
def pyStrip (s : String) : String := String.mk (pyStripChars s.data)

/-- Python `sep.join(strs)`. -/
def joinWith (sep : String) : List String → String
  | [] => ""
  | [s] => s
  | s :: t :: rest => s ++ sep ++ joinWith sep (t :: rest)

/-- Escape one character the way Python `repr` escapes it inside a
single-quoted string literal. -/
def pyReprChar (c : Char) : String :=
  if c = '\x5c' then "\x5c\x5c"
  else if c = '\'' then "\x5c'"
  else if c = '\n' then "\x5cn"
  else if c = '\r' then "\x5cr"
  else if c = '\t' then "\x5ct"
  else String.mk [c]

/-- Python `repr` of a string, modelled with a fixed single-quote style.
Only reachable when an address field holds a non-string container, where
the claims do not depend on the exact rendering. -/
def pyReprStr (s : String) : String :=
  "'" ++ String.join (s.data.map pyReprChar) ++ "'"

mutual

/-- Python `repr` for JSON-shaped values (used by `str` on containers). -/
def pyRepr : JVal → String
  | .null => "None"
  | .bool true => "True"
  | .bool false => "False"
  | .num n => toString n
  | .str s => pyReprStr s
  | .arr xs => "[" ++ pyReprList xs ++ "]"
  | .obj kvs => "\x7b" ++ pyReprFields kvs ++ "\x7d"

def pyReprList : List JVal → String
  | [] => ""
  | [x] => pyRepr x
  | x :: y :: rest => pyRepr x ++ ", " ++ pyReprList (y :: rest)

def pyReprFields : List (String × JVal) → String
  | [] => ""
  | [(k, v)] => pyReprStr k ++ ": " ++ pyRepr v
  | (k, v) :: kv :: rest => pyReprStr k ++ ": " ++ pyRepr v ++ ", " ++ pyReprFields (kv :: rest)

end

/-- Python `str(v)`, as applied by an f-string interpolation. -/
def fstr : JVal → String
  | .str s => s
  | .null => "None"
  | .bool true => "True"
  | .bool false => "False"
  | .num n => toString n
  | .arr xs => pyRepr (.arr xs)
  | .obj kvs => pyRepr (.obj kvs)

/-- `_normalize_collection` from the source: wrap a bare list as a
`hydra` envelope, pass a dict through unchanged, and map anything else
to the empty envelope. -/
def _normalize_collection (coll : JVal) : JVal :=
  match coll with
  | .arr xs => .obj [("hydra:member", .arr xs), ("hydra:totalItems", .num xs.length)]
  | .obj kvs => .obj kvs
  | _ => .obj [("hydra:member", .arr []), ("hydra:totalItems", .num 0)]

/-- The claim's notion of a valid envelope: the items field holds an
ordered sequence and the total-count field a non-negative integer. -/
def isEnvelopeB (v : JVal) : Bool :=
  match v with
  | .obj kvs =>
    (match lookupField kvs "hydra:member" with
     | some (.arr _) => true
     | _ => false)
    &&
    (match lookupField kvs "hydra:totalItems" with
     | some (.num n) => n ≥ 0
     | _ => false)
  | _ => false

/-- `coll.get("hydra:member", [])` as the printers read an envelope:
the stored value when the key is present, `[]` when it is absent. -/
def readMember (coll : JVal) : JVal :=
  match coll with
  | .obj kvs => (lookupField kvs "hydra:member").getD (.arr [])
  | _ => .arr []

/-- `coll.get("hydra:totalItems", len(items))` as the printers read an
envelope, with `itemsLen` the length of the already-read item list. -/
def readTotal (coll : JVal) (itemsLen : Nat) : JVal :=
  match coll with
  | .obj kvs => (lookupField kvs "hydra:totalItems").getD (.num itemsLen)
  | _ => .num itemsLen

/-- `_format_address` from the source.  The return type is `JVal`
because `return email or name` hands back the raw field value, which is
a string only when the field holds one. -/
def _format_address (addr : JVal) : JVal :=
  match addr with
  | .obj _ =>
    let name := pyOr (jGet addr "name") (.str "")
    let email := pyOr (jGet addr "address") (.str "")
    if truthy name && truthy email then
      .str (fstr name ++ " <" ++ fstr email ++ ">")
    else pyOr email name
  | .str s => .str s
  | _ => .str ""

/-- The loop body of `_format_address_list`: format each element and
keep the truthy results, in order. -/
def collectParts : List JVal → List JVal
  | [] => []
  | a :: rest =>
    let s := _format_address a
    if truthy s then s :: collectParts rest else collectParts rest

/-- Extract the underlying strings when every element is a `str`. -/
def allStrings : List JVal → Option (List String)
  | [] => some []
  | .str s :: rest => (allStrings rest).map (s :: ·)
  | _ => none

/-- `", ".join(parts)`: raises `TypeError` when any element is not a
string. -/
def joinPyStrs (parts : List JVal) : Except Unit String :=
  match allStrings parts with
  | some ss => .ok (joinWith ", " ss)
  | none => .error ()

/-- `_format_address_list` from the source: `None` and non-list,
non-dict, non-string inputs give `""`; a dict or string is wrapped as a
one-element list; a list is formatted elementwise, empties dropped, and
joined with `", "` (which raises on non-string parts). -/
def _format_address_list (addrs : JVal) : Except Unit String :=
  match addrs with
  | .null => .ok ""
  | .obj kvs => joinPyStrs (collectParts [.obj kvs])
  | .str s => joinPyStrs (collectParts [.str s])
  | .arr xs => joinPyStrs (collectParts xs)
  | _ => .ok ""

mutual

/-- Python `==` on JSON-shaped values: numbers and booleans compare
numerically, lists elementwise; cross-type comparisons are `False` and
never raise.  Dict equality is modelled pointwise on the ordered field
list (Python's key-set equality differs only for reordered dicts, which
no comparison reachable from the claims performs). -/
def pyEq : JVal → JVal → Bool
  | .null, .null => true
  | .bool a, .bool b => a == b
  | .bool a, .num b => (if a then (1 : Int) else 0) == b
  | .num a, .bool b => a == (if b then (1 : Int) else 0)
  | .num a, .num b => a == b
  | .str a, .str b => a == b
  | .arr a, .arr b => pyEqList a b
  | .obj a, .obj b => pyEqFields a b
  | _, _ => false

def pyEqList : List JVal → List JVal → Bool
  | [], [] => true
  | a :: as, b :: bs => pyEq a b && pyEqList as bs
  | _, _ => false

def pyEqFields : List (String × JVal) → List (String × JVal) → Bool
  | [], [] => true
  | (k, v) :: as, (l, w) :: bs => k == l && pyEq v w && pyEqFields as bs
  | _, _ => false

end

/-- A numeric view of a value for Python `<`: booleans are integers. -/
def toNum : JVal → Option Int
  | .num n => some n
  | .bool b => some (if b then 1 else 0)
  | _ => none

mutual

/-- Python `a < b` on JSON-shaped values; `none` models a raised
`TypeError` (mixed non-numeric types, `None`, dicts). -/
def pyLt : JVal → JVal → Option Bool
  | .str a, .str b => some (decide (a < b))
  | .arr a, .arr b => pyLtList a b
  | a, b =>
    match toNum a, toNum b with
    | some x, some y => some (decide (x < y))
    | _, _ => none

/-- Python list `<`: skip `==` prefixes, then compare the first unequal
pair; an exhausted side is smaller. -/
def pyLtList : List JVal → List JVal → Option Bool
  | [], [] => some false
  | [], _ :: _ => some true
  | _ :: _, [] => some false
  | a :: as, b :: bs => if pyEq a b then pyLtList as bs else pyLt a b

end

/-- Whether Python can compare two values with `<` without raising. -/
def comparable (a b : JVal) : Bool := (pyLt a b).isSome

/-- Every pair of values at distinct positions is comparable.  Python's
sort raises `TypeError` exactly when it evaluates `<` on an incomparable
pair; with at least two comparability classes present some comparison
always crosses classes, so this predicate characterises the non-raising
runs. -/
def pairwiseComparable : List JVal → Bool
  | [] => true
  | k :: rest => rest.all (fun l => comparable k l) && pairwiseComparable rest

/-- The sort key `lambda m: (m.get("createdAt") or "")`; `none` models
the `AttributeError` raised by `.get` on a non-dict item. -/
def sortKey : JVal → Option JVal
  | .obj kvs => some (pyOr ((lookupField kvs "createdAt").getD .null) (.str ""))
  | _ => none

/-- Compute the key of every item, pairing each item with its key
(Python `sorted` calls the key function once per element, in order). -/
def sortKeys : List JVal → Option (List (JVal × JVal))
  | [] => some []
  | m :: rest =>
    match sortKey m with
    | some k => (sortKeys rest).map ((k, m) :: ·)
    | none => none

/-- Strict descending-insert comparison: `p` must move past `q` exactly
when `p`'s key is strictly below `q`'s. -/
def ltKeyB (p q : JVal × JVal) : Bool := (pyLt p.1 q.1).getD false

/-- Insert into a descending-sorted list, after every element with a
greater-or-equal key (so earlier input elements stay first on ties). -/
def insertDesc (x : JVal × JVal) : List (JVal × JVal) → List (JVal × JVal)
  | [] => [x]
  | y :: ys => if ltKeyB x y then y :: insertDesc x ys else x :: y :: ys

/-- Stable descending sort by key, inserting right-to-left. -/
def sortDesc : List (JVal × JVal) → List (JVal × JVal)
  | [] => []
  | x :: xs => insertDesc x (sortDesc xs)

/-- `_sort_desc_by_created` from the source:
`sorted(items, key=lambda m: (m.get("createdAt") or ""), reverse=True)`.
CPython's sort is stable; with `reverse=True` it orders keys descending
while ties keep input order, which `sortDesc` computes.  It raises when
a key computation or a key comparison raises. -/
def _sort_desc_by_created (items : List JVal) : Except Unit (List JVal) :=
  match sortKeys items with
  | none => .error ()
  | some keyed =>
    if pairwiseComparable (keyed.map Prod.fst) then
      .ok ((sortDesc keyed).map Prod.snd)
    else .error ()

theorem length_dropWhile_le (p : α → Bool) (l : List α) :
    (l.dropWhile p).length ≤ l.length := by
  induction l with
  | nil => simp
  | cons a l ih =>
    by_cases h : p a
    · rw [List.dropWhile_cons_of_pos h]; exact Nat.le_succ_of_le ih
    · simp [List.dropWhile_cons, h]

/-- Case-insensitive prefix test (ASCII case folding, matching the
`(?i)` regex flag on the tag names used in the source). -/
def startsWithCI : List Char → List Char → Bool
  | [], _ => true
  | _ :: _, [] => false
  | p :: ps, c :: cs => (p.toLower == c.toLower) && startsWithCI ps cs

/-- Find the leftmost (case-insensitive) occurrence of `pat` and return
the suffix after it; this is how a non-greedy `.*?pat` consumes input. -/
def findSplitCI (pat : List Char) : List Char → Option (List Char)
  | [] => if pat.isEmpty then some [] else none
  | c :: cs =>
    if startsWithCI pat (c :: cs) then some (List.drop pat.length (c :: cs))
    else findSplitCI pat cs

theorem findSplitCI_length {pat : List Char} (hp : 1 ≤ pat.length) :
    ∀ {l rest : List Char}, findSplitCI pat l = some rest → rest.length < l.length := by
  intro l
  induction l with
  | nil =>
    intro rest h
    have : ¬ pat.isEmpty := by
      cases pat with
      | nil => simp at hp
      | cons a t => simp
    simp [findSplitCI, this] at h
  | cons c cs ih =>
    intro rest h
    rw [findSplitCI] at h
    split at h
    · cases h
      simp only [List.length_drop, List.length_cons]
      omega
    · exact Nat.lt_succ_of_lt (ih h)

/-- The named HTML entities modelled from the Python stdlib
`html.unescape` (restricted to the common table; the decoder is the
identity on text containing no ampersand, which is all the claims use). -/
def entityTable : List (List Char × Char) :=
  [("amp;".data, '&'), ("lt;".data, '<'), ("gt;".data, '>'),
   ("quot;".data, '"'), ("#39;".data, '\''), ("apos;".data, '\''),
   ("nbsp;".data, '\u00A0')]

def matchEntity : List (List Char × Char) → List Char → Option (Char × List Char)
  | [], _ => none
  | (pat, ch) :: table, cs =>
    if pat.isPrefixOf cs then some (ch, cs.drop pat.length)
    else matchEntity table cs

theorem matchEntity_length :
    ∀ (t : List (List Char × Char)) (cs : List Char) (ch : Char) (rest : List Char),
    matchEntity t cs = some (ch, rest) → rest.length ≤ cs.length := by
  intro t
  induction t with
  | nil => intro cs ch rest h; simp [matchEntity] at h
  | cons e t ih =>
    intro cs ch rest h
    rw [matchEntity] at h
    split at h
    · cases h; simp only [List.length_drop]; omega
    · exact ih cs ch rest h

/-- The entity-decode pass (`html.unescape`), scanning left to right.
The fuel argument only bounds the recursion; every call site passes the
input length, which `matchEntity_length` shows is always enough, so the
fuel-exhausted branch is never taken on those calls. -/
def unescapeEntitiesF : Nat → List Char → List Char
  | 0, cs => cs
  | _ + 1, [] => []
  | fuel + 1, c :: cs =>
    if c = '&' then
      match matchEntity entityTable cs with
      | some (ch, rest) => ch :: unescapeEntitiesF fuel rest
      | none => '&' :: unescapeEntitiesF fuel cs
    else c :: unescapeEntitiesF fuel cs

def unescapeEntities (cs : List Char) : List Char := unescapeEntitiesF cs.length cs

/-- Match the body of `(?is)<(script|style).*?>.*?</\1>` when the text
after a `<` starts with `name`: the non-greedy `.*?>` consumes up to the
first `>`, and the non-greedy `.*?</name>` up to the first matching
close tag after it. -/
def matchBlockName (name : List Char) (cs : List Char) : Option (List Char) :=
  if startsWithCI name cs then
    match findSplitCI ['>'] (cs.drop name.length) with
    | some afterGt => findSplitCI ('<' :: '/' :: (name ++ ['>'])) afterGt
    | none => none
  else none

theorem matchBlockName_length (name cs rest : List Char)
    (h : matchBlockName name cs = some rest) : rest.length < cs.length := by
  rw [matchBlockName] at h
  split at h
  · split at h
    · next afterGt hGt =>
      have h1 : afterGt.length < (cs.drop name.length).length :=
        findSplitCI_length (by simp) hGt
      have h2 : rest.length < afterGt.length :=
        findSplitCI_length (by simp) h
      have h3 : (cs.drop name.length).length ≤ cs.length := by
        simp only [List.length_drop]; omega
      omega
    · cases h
  · cases h

def matchScriptStyle (cs : List Char) : Option (List Char) :=
  match matchBlockName "script".data cs with
  | some rest => some rest
  | none => matchBlockName "style".data cs

theorem matchScriptStyle_length (cs rest : List Char)
    (h : matchScriptStyle cs = some rest) : rest.length < cs.length := by
  rw [matchScriptStyle] at h
  split at h
  · next r hr => cases h; exact matchBlockName_length _ _ _ hr
  · exact matchBlockName_length _ _ _ h

/-- Pass 3: `re.sub(r"(?is)<(script|style).*?>.*?</\1>", "", html)`.
Fuel-bounded; `matchScriptStyle_length` shows the input length is
always sufficient fuel. -/
def stripScriptStyleF : Nat → List Char → List Char
  | 0, cs => cs
  | _ + 1, [] => []
  | fuel + 1, c :: cs =>
    if c = '<' then
      match matchScriptStyle cs with
      | some rest => stripScriptStyleF fuel rest
      | none => c :: stripScriptStyleF fuel cs
    else c :: stripScriptStyleF fuel cs

def stripScriptStyle (cs : List Char) : List Char := stripScriptStyleF cs.length cs

/-- Match the tail of `(?i)<br\s*/?>` after the `<`. -/
def matchBr (cs : List Char) : Option (List Char) :=
  if startsWithCI "br".data cs then
    match (cs.drop 2).dropWhile pyIsSpace with
    | '>' :: r => some r
    | '/' :: '>' :: r => some r
    | _ => none
  else none

theorem matchBr_length (cs r : List Char) (h : matchBr cs = some r) :
    r.length < cs.length := by
  rw [matchBr] at h
  split at h
  · next hPre =>
    have hdw : ((cs.drop 2).dropWhile pyIsSpace).length ≤ cs.length - 2 := by
      have := length_dropWhile_le pyIsSpace (cs.drop 2)
      simp only [List.length_drop] at this
      omega
    have h2 : 2 ≤ cs.length := by
      cases cs with
      | nil => simp [startsWithCI] at hPre
      | cons a t =>
        cases t with
        | nil => simp [startsWithCI] at hPre
        | cons b u => simp only [List.length_cons]; omega
    split at h
    · next r' heq =>
      cases h
      have : ('>' :: r).length ≤ cs.length - 2 := heq ▸ hdw
      simp only [List.length_cons] at this
      omega
    · next r' heq =>
      cases h
      have : ('/' :: '>' :: r).length ≤ cs.length - 2 := heq ▸ hdw
      simp only [List.length_cons] at this
      omega
    · cases h
  · cases h

/-- Pass 4: `re.sub(r"(?i)<br\s*/?>", "\n", html)`.  Fuel-bounded;
`matchBr_length` shows the input length is always sufficient fuel. -/
def brPassF : Nat → List Char → List Char
  | 0, cs => cs
  | _ + 1, [] => []
  | fuel + 1, c :: cs =>
    if c = '<' then
      match matchBr cs with
      | some rest => '\n' :: brPassF fuel rest
      | none => c :: brPassF fuel cs
    else c :: brPassF fuel cs

def brPass (cs : List Char) : List Char := brPassF cs.length cs

/-- Match `name>` (case-insensitively) and return the remainder. -/
def tryTagName (name : List Char) (cs : List Char) : Option (List Char) :=
  if startsWithCI name cs then
    match cs.drop name.length with
    | '>' :: r => some r
    | _ => none
  else none

theorem tryTagName_length (name cs r : List Char) (hn : 1 ≤ name.length)
    (h : tryTagName name cs = some r) : r.length < cs.length := by
  rw [tryTagName] at h
  split at h
  · split at h
    · next r' heq =>
      cases h
      have : ('>' :: r).length = cs.length - name.length := by
        rw [← heq]; simp [List.length_drop]
      simp only [List.length_cons] at this
      omega
    · cases h
  · cases h

/-- Match `h<digit>>` (the `h\d` alternative) and return the remainder. -/
def tryHeading : List Char → Option (List Char)
  | h :: d :: '>' :: r => if h.toLower == 'h' && d.isDigit then some r else none
  | _ => none

theorem tryHeading_length (cs r : List Char) (h : tryHeading cs = some r) :
    r.length < cs.length := by
  rw [tryHeading.eq_def] at h
  split at h
  · split at h
    · cases h; simp only [List.length_cons]; omega
    · cases h
  · cases h

/-- Match the tail of `(?i)</(p|div|h\d|li|tr|table|ul|ol)>` after the
`<`, trying the alternatives in the pattern's order. -/
def matchCloser : List Char → Option (List Char)
  | '/' :: rest =>
    match tryTagName "p".data rest with
    | some r => some r
    | none =>
    match tryTagName "div".data rest with
    | some r => some r
    | none =>
    match tryHeading rest with
    | some r => some r
    | none =>
    match tryTagName "li".data rest with
    | some r => some r
    | none =>
    match tryTagName "tr".data rest with
    | some r => some r
    | none =>
    match tryTagName "table".data rest with
    | some r => some r
    | none =>
    match tryTagName "ul".data rest with
    | some r => some r
    | none => tryTagName "ol".data rest
  | _ => none

theorem matchCloser_length (cs r : List Char) (h : matchCloser cs = some r) :
    r.length < cs.length := by
  rw [matchCloser.eq_def] at h
  split at h
  case h_2 => cases h
  next rest =>
  have step : ∀ (name : List Char), 1 ≤ name.length →
      ∀ r', tryTagName name rest = some r' → r = r' → r.length < ('/' :: rest).length := by
    intro name hn r' ht he
    rw [he]
    exact Nat.lt_succ_of_lt (tryTagName_length name rest r' hn ht)
  split at h
  · next r' h1 => exact step _ (by simp) r' h1 (by cases h; rfl)
  · split at h
    · next r' h1 => exact step _ (by simp) r' h1 (by cases h; rfl)
    · split at h
      · next r' h1 =>
        have h3 := tryHeading_length rest r' h1
        injection h with h2
        rw [← h2]
        exact Nat.lt_succ_of_lt h3
      · split at h
        · next r' h1 => exact step _ (by simp) r' h1 (by cases h; rfl)
        · split at h
          · next r' h1 => exact step _ (by simp) r' h1 (by cases h; rfl)
          · split at h
            · next r' h1 => exact step _ (by simp) r' h1 (by cases h; rfl)
            · split at h
              · next r' h1 => exact step _ (by simp) r' h1 (by cases h; rfl)
              · exact step _ (by simp) r h (rfl)

/-- Pass 5: `re.sub(r"(?i)</(p|div|h\d|li|tr|table|ul|ol)>", "\n", html)`.
Fuel-bounded; `matchCloser_length` shows the input length is always
sufficient fuel. -/
def closersPassF : Nat → List Char → List Char
  | 0, cs => cs
  | _ + 1, [] => []
  | fuel + 1, c :: cs =>
    if c = '<' then
      match matchCloser cs with
      | some rest => '\n' :: closersPassF fuel rest
      | none => c :: closersPassF fuel cs
    else c :: closersPassF fuel cs

def closersPass (cs : List Char) : List Char := closersPassF cs.length cs

/-- Pass 6: `re.sub(r"(?s)<.*?>", "", html)` — each `<` up to the
nearest following `>` is removed; a `<` with no later `>` ends the
matching, leaving the remainder untouched. -/
def stripTagsF : Nat → List Char → List Char
  | 0, cs => cs
  | _ + 1, [] => []
  | fuel + 1, c :: cs =>
    if c = '<' then
      match findSplitCI ['>'] cs with
      | some rest => stripTagsF fuel rest
      | none => c :: cs
    else c :: stripTagsF fuel cs

def stripTags (cs : List Char) : List Char := stripTagsF cs.length cs

def isHT (c : Char) : Bool := c = ' ' || c = '\t'

/-- Pass 7: `re.sub(r"[ \t]+\n", "\n", html)` — a maximal run of
horizontal whitespace immediately followed by a newline is dropped. -/
def hwsPassF : Nat → List Char → List Char
  | 0, cs => cs
  | _ + 1, [] => []
  | fuel + 1, c :: cs =>
    if isHT c then
      match List.dropWhile isHT (c :: cs) with
      | '\n' :: r => hwsPassF fuel ('\n' :: r)
      | rest => List.takeWhile isHT (c :: cs) ++ hwsPassF fuel rest
    else c :: hwsPassF fuel cs

def hwsPass (cs : List Char) : List Char := hwsPassF cs.length cs

def isNl (c : Char) : Bool := c = '\n'

/-- Pass 8: `re.sub(r"\n{3,}", "\n\n", html)` — a maximal newline run of
length at least three becomes exactly two newlines. -/
def nlCollapseF : Nat → List Char → List Char
  | 0, cs => cs
  | _ + 1, [] => []
  | fuel + 1, c :: cs =>
    if isNl c then
      (if 3 ≤ (List.takeWhile isNl (c :: cs)).length then ['\n', '\n']
       else List.takeWhile isNl (c :: cs))
        ++ nlCollapseF fuel (List.dropWhile isNl (c :: cs))
    else c :: nlCollapseF fuel cs

def nlCollapse (cs : List Char) : List Char := nlCollapseF cs.length cs

/-- The string fragments kept by
`[part for part in html_parts if isinstance(part, str)]`. -/
def strFragments : List JVal → List String
  | [] => []
  | .str s :: rest => s :: strFragments rest
  | _ :: rest => strFragments rest

/-- Pass 1: `"\n\n".join(...)` over the kept string fragments. -/
def joinFrags (ps : List JVal) : String :=
  joinWith "\n\n" (strFragments ps)

/-- Passes 2-9 of `_simplify_html` in the source's order: entity decode,
script/style removal, `<br>` to newline, block close tags to newline,
generic tag strip, trailing-horizontal-whitespace collapse, newline-run
collapse, final strip. -/
def simplifyChars (cs : List Char) : List Char :=
  pyStripChars (nlCollapse (hwsPass (stripTags (closersPass (brPass
    (stripScriptStyle (unescapeEntities cs)))))))

/-- `_simplify_html` from the source.  A falsy argument returns `""`;
iterating a string yields its one-character strings and iterating a dict
its keys (Python `for part in html_parts`); a truthy non-iterable
(number, `True`) raises `TypeError`, modelled as `.error ()`. -/
def _simplify_html (v : JVal) : Except Unit String :=
  if truthy v then
    match v with
    | .arr ps => .ok (String.mk (simplifyChars (joinFrags ps).data))
    | .str s =>
      .ok (String.mk (simplifyChars
        (joinFrags (s.data.map (fun c => .str (String.mk [c])))).data))
    | .obj kvs =>
      .ok (String.mk (simplifyChars (joinFrags (kvs.map (fun kv => .str kv.1))).data))
    | _ => .error ()
  else .ok ""

/-- Python `s.replace(pat, rep)`: replace non-overlapping occurrences
left to right (for a non-empty pattern).  Fuel-bounded by the input
length, which is always sufficient: each step consumes at least one
character. -/
def pyReplaceF (pat rep : List Char) : Nat → List Char → List Char
  | 0, cs => cs
  | _ + 1, [] => []
  | fuel + 1, c :: cs =>
    if pat.isPrefixOf (c :: cs) then
      rep ++ pyReplaceF pat rep fuel (List.drop pat.length (c :: cs))
    else c :: pyReplaceF pat rep fuel cs

def pyReplace (s pat rep : String) : String :=
  String.mk (pyReplaceF pat.data rep.data s.data.length s.data)

/-- What the body part of `print_message` prints: the plain-text body,
the simplified HTML body, or the `(No body content)` marker. -/
inductive BodySection where
  | textBody (s : String)
  | htmlBody (s : String)
  | noBody
deriving Repr

/-- The HTML fallback branch of `print_message`:
`html_parts = full.get("html") or []`, then simplify when truthy and
report `(No body content)` when absent or when the simplified result is
empty. -/
def fallbackHtml (full : JVal) : Except Unit BodySection :=
  let hp := pyOr (jGet full "html") (.arr [])
  if truthy hp then
    match _simplify_html hp with
    | .error e => .error e
    | .ok s => if s = "" then .ok .noBody else .ok (.htmlBody s)
  else .ok .noBody

/-- The body-selection logic of `print_message` (source lines 302-320):
prefer `full.get("text")` when it is a string with non-empty strip
(printing the stripped text), otherwise fall back to the simplified
HTML body, otherwise `(No body content)`. -/
def bodySection (full : JVal) : Except Unit BodySection :=
  match jGet full "text" with
  | .str s => if pyStrip s ≠ "" then .ok (.textBody (pyStrip s)) else fallbackHtml full
  | _ => fallbackHtml full

/-- The intro preview expression of `print_list` (source line 285):
`intro[:120].replace('\x5c\x5cn', ' ')` followed by an ellipsis when
`len(intro) > 120`.  Note the doubled backslash in the source: the
pattern passed to `replace` is the two-character text backslash-n, not
the newline character. -/
def introPreview (intro : String) : String :=
  pyReplace (String.mk (intro.data.take 120)) "\x5cn" " "
    ++ (if 120 < intro.length then "…" else "")

/-- What the claim says the preview should be: truncate to 120
characters, replace newline characters with spaces, append the ellipsis
when the intro is longer than 120. -/
def claimedIntroPreview (intro : String) : String :=
  String.mk ((intro.data.take 120).map (fun c => if c = '\n' then ' ' else c))
    ++ (if 120 < intro.length then "…" else "")

/-- The attachment lines of `print_message` (source lines 321-324): only
under a truthy `hasAttachments`, iterate `full.get("attachments") or []`
and keep the dict entries.  Iterating a truthy non-iterable raises;
iterating a string yields its characters and a dict its keys, none of
which are dicts. -/
def attachmentEntries (full : JVal) : Except Unit (List JVal) :=
  if truthy (jGet full "hasAttachments") then
    match pyOr (jGet full "attachments") (.arr []) with
    | .arr xs => .ok (xs.filter (fun a => match a with | .obj _ => true | _ => false))
    | .str _ => .ok []
    | .obj _ => .ok []
    | _ => .error ()
  else .ok []

/-- The computed sort key of an item (total view: `sortKey` defaulted). -/
def keyOf (m : JVal) : JVal := (sortKey m).getD (.str "")

/-- The key seen as a string (the shape the API delivers: an ISO-8601
`createdAt` string, or `""` when the field is missing or falsy). -/
def keyStr (m : JVal) : String :=
  match keyOf m with
  | .str s => s
  | _ => ""

/-- The string key of a (key, item) pair. -/
def sKey (p : JVal × JVal) : String :=
  match p.1 with
  | .str s => s
  | _ => ""

/-- The descending comparison relation on keyed pairs. -/
def rGe (p q : JVal × JVal) : Prop := sKey q ≤ sKey p

instance : DecidableRel rGe :=
  fun p q => inferInstanceAs (Decidable (sKey q ≤ sKey p))

instance : IsTotal (JVal × JVal) rGe :=
  ⟨fun a b => le_total (sKey b) (sKey a)⟩

instance : IsTrans (JVal × JVal) rGe :=
  ⟨fun _ _ _ h1 h2 => le_trans h2 h1⟩

theorem ltKeyB_of_str {x y : JVal × JVal} {a b : String}
    (ha : x.1 = .str a) (hb : y.1 = .str b) :
    ltKeyB x y = decide (a < b) := by
  simp [ltKeyB, ha, hb, pyLt]

theorem sKey_of_str {x : JVal × JVal} {a : String} (ha : x.1 = .str a) :
    sKey x = a := by
  simp [sKey, ha]

/-- On pairs with string keys, `insertDesc` is Mathlib's
`orderedInsert` for the descending relation. -/
theorem insertDesc_eq_orderedInsert (x : JVal × JVal) (l : List (JVal × JVal))
    (hx : ∃ s, x.1 = JVal.str s) (hl : ∀ p ∈ l, ∃ s, p.1 = JVal.str s) :
    insertDesc x l = List.orderedInsert rGe x l := by
  induction l with
  | nil => rfl
  | cons y ys ih =>
    obtain ⟨a, ha⟩ := hx
    obtain ⟨b, hb⟩ := hl y (by simp)
    rw [insertDesc, List.orderedInsert]
    by_cases hab : a < b
    · rw [if_pos (by rw [ltKeyB_of_str ha hb]; exact decide_eq_true hab)]
      rw [if_neg (by
        show ¬ rGe x y
        rw [rGe, sKey_of_str ha, sKey_of_str hb]
        exact not_le.mpr hab)]
      rw [ih (fun p hp => hl p (List.mem_cons_of_mem y hp))]
    · rw [if_neg (by rw [ltKeyB_of_str ha hb]; simp [hab])]
      rw [if_pos (by
        show rGe x y
        rw [rGe, sKey_of_str ha, sKey_of_str hb]
        exact not_lt.mp hab)]

/-- On lists of pairs with string keys, `sortDesc` is Mathlib's
`insertionSort` for the descending relation. -/
theorem sortDesc_eq_insertionSort (l : List (JVal × JVal))
    (hl : ∀ p ∈ l, ∃ s, p.1 = JVal.str s) :
    sortDesc l = List.insertionSort rGe l := by
  induction l with
  | nil => rfl
  | cons x xs ih =>
    rw [sortDesc, List.insertionSort]
    have hxs : ∀ p ∈ xs, ∃ s, p.1 = JVal.str s :=
      fun p hp => hl p (List.mem_cons_of_mem x hp)
    rw [ih hxs]
    exact insertDesc_eq_orderedInsert x _ (hl x (by simp))
      (fun p hp => hxs p ((List.mem_insertionSort rGe).mp hp))

/-- Under a total key function, `sortKeys` succeeds and pairs every item
with its key. -/
theorem sortKeys_eq_map (items : List JVal)
    (h : ∀ m ∈ items, (sortKey m).isSome = true) :
    sortKeys items = some (items.map (fun m => (keyOf m, m))) := by
  induction items with
  | nil => rfl
  | cons m rest ih =>
    have hm := h m (by simp)
    obtain ⟨k, hk⟩ : ∃ k, sortKey m = some k := ⟨(sortKey m).get hm, (Option.some_get hm).symm⟩
    rw [sortKeys, hk, ih (fun x hx => h x (List.mem_cons_of_mem m hx))]
    simp [keyOf, hk]

theorem pairwiseComparable_of_str (ks : List JVal)
    (h : ∀ k ∈ ks, ∃ s, k = JVal.str s) :
    pairwiseComparable ks = true := by
  induction ks with
  | nil => rfl
  | cons k rest ih =>
    rw [pairwiseComparable, Bool.and_eq_true]
    constructor
    · rw [List.all_eq_true]
      intro l hl
      obtain ⟨a, ha⟩ := h k (by simp)
      obtain ⟨b, hb⟩ := h l (List.mem_cons_of_mem k hl)
      simp [comparable, ha, hb, pyLt]
    · exact ih (fun x hx => h x (List.mem_cons_of_mem k hx))

/-- The domain on which the claims describe the sort: every item is a
mapping whose computed key is a string (a string `createdAt`, or a
missing/falsy one defaulting to `""`). -/
def goodItems (items : List JVal) : Prop :=
  ∀ m ∈ items, (∃ kvs, m = JVal.obj kvs) ∧ ∃ s, keyOf m = JVal.str s

theorem sortKey_isSome_of_good {items : List JVal} (h : goodItems items) :
    ∀ m ∈ items, (sortKey m).isSome = true := by
  intro m hm
  obtain ⟨⟨kvs, hkvs⟩, _⟩ := h m hm
  rw [hkvs, sortKey]
  rfl

theorem keyOf_eq_some {m : JVal} (h : (sortKey m).isSome = true) :
    sortKey m = some (keyOf m) := by
  obtain ⟨k, hk⟩ : ∃ k, sortKey m = some k := ⟨(sortKey m).get h, (Option.some_get h).symm⟩
  rw [hk]; simp [keyOf, hk]

/-- On the good domain, `_sort_desc_by_created` succeeds and computes
the descending insertion sort of the keyed items. -/
theorem sort_ok_of_good (items : List JVal) (h : goodItems items) :
    _sort_desc_by_created items =
      .ok ((List.insertionSort rGe (items.map (fun m => (keyOf m, m)))).map Prod.snd) := by
  have hsome := sortKey_isSome_of_good h
  have hkeys := sortKeys_eq_map items hsome
  have hstr : ∀ p ∈ items.map (fun m => (keyOf m, m)), ∃ s, p.1 = JVal.str s := by
    intro p hp
    obtain ⟨m, hm, rfl⟩ := List.mem_map.mp hp
    exact (h m hm).2
  have hcomp : pairwiseComparable ((items.map (fun m => (keyOf m, m))).map Prod.fst) = true := by
    apply pairwiseComparable_of_str
    intro k hk
    obtain ⟨p, hp, rfl⟩ := List.mem_map.mp hk
    exact hstr p hp
  rw [_sort_desc_by_created, hkeys]
  simp only [hcomp, if_true]
  rw [sortDesc_eq_insertionSort _ hstr]

/-- The empty envelope produced for non-sequence, non-mapping inputs. -/
def emptyEnvelope : JVal :=
  .obj [("hydra:member", .arr []), ("hydra:totalItems", .num 0)]

theorem pyOr_default_empty (a : JVal) (h : truthy (pyOr a (.str "")) = false) :
    pyOr a (.str "") = .str "" := by
  by_cases ta : truthy a
  · rw [pyOr, if_pos ta] at h
    rw [ta] at h
    cases h
  · rw [pyOr, if_neg ta]

/-!  ## Claim theorems  -/

/-- C1 (counterexample): the normalizer does not return a valid envelope
for every input; the empty mapping passes through unchanged, with no
items field and no total-count field at all. -/
theorem normalize_mapping_unvalidated :
    _normalize_collection (.obj []) = .obj []
    ∧ isEnvelopeB (_normalize_collection (.obj [])) = false :=
  ⟨rfl, rfl⟩

/-- C1 (amended): the normalizer wraps a sequence as an envelope with
the sequence as items and its length as total count, returns a mapping
input unchanged without validating or defaulting its fields, and maps
any other shape to the empty envelope; the defaulting of the total count
to `len(items)` happens when the printers read the envelope, not in the
normalizer. -/
theorem normalize_collection_characterization :
    (∀ xs : List JVal,
      _normalize_collection (.arr xs)
        = .obj [("hydra:member", .arr xs), ("hydra:totalItems", .num xs.length)]
      ∧ isEnvelopeB (_normalize_collection (.arr xs)) = true)
    ∧ (∀ kvs, _normalize_collection (.obj kvs) = .obj kvs)
    ∧ (_normalize_collection .null = emptyEnvelope
       ∧ (∀ b, _normalize_collection (.bool b) = emptyEnvelope)
       ∧ (∀ n, _normalize_collection (.num n) = emptyEnvelope)
       ∧ (∀ s, _normalize_collection (.str s) = emptyEnvelope)
       ∧ isEnvelopeB emptyEnvelope = true)
    ∧ (∀ kvs xs, lookupField kvs "hydra:member" = some (.arr xs) →
        lookupField kvs "hydra:totalItems" = none →
        readMember (_normalize_collection (.obj kvs)) = .arr xs
        ∧ readTotal (_normalize_collection (.obj kvs)) xs.length = .num xs.length) := by
  refine ⟨?_, fun kvs => rfl, ⟨rfl, fun b => rfl, fun n => rfl, fun s => rfl, rfl⟩, ?_⟩
  · intro xs
    refine ⟨rfl, ?_⟩
    have h1 : lookupField [("hydra:member", JVal.arr xs),
        ("hydra:totalItems", JVal.num xs.length)] "hydra:member" = some (.arr xs) := by
      rw [lookupField, if_pos rfl]
    have h2 : lookupField [("hydra:member", JVal.arr xs),
        ("hydra:totalItems", JVal.num xs.length)] "hydra:totalItems"
        = some (.num xs.length) := by
      rw [lookupField, if_neg (by decide), lookupField, if_pos rfl]
    simp only [_normalize_collection, isEnvelopeB, h1, h2]
    simp
  · intro kvs xs h1 h2
    constructor
    · show (lookupField kvs "hydra:member").getD (.arr []) = .arr xs
      rw [h1]; rfl
    · show (lookupField kvs "hydra:totalItems").getD (.num xs.length) = .num xs.length
      rw [h2]; rfl

/-- C1 (witness): the amended characterization applied to a concrete
sequence, a concrete scalar, and a concrete envelope missing its total
count. -/
theorem normalize_collection_characterization_witness :
    _normalize_collection (.arr [.num 7])
      = .obj [("hydra:member", .arr [.num 7]), ("hydra:totalItems", .num 1)]
    ∧ readTotal (_normalize_collection (.obj [("hydra:member", .arr [.num 7])])) 1 = .num 1 :=
  ⟨(normalize_collection_characterization.1 [.num 7]).1,
   (normalize_collection_characterization.2.2.2 [("hydra:member", .arr [.num 7])] [.num 7]
      rfl rfl).2⟩

/-- C3 (code bug): the listing renderer's intro preview replaces the
literal two-character sequence backslash-n (the source says
`.replace('\x5c\x5cn', ' ')` inside an f-string, so the pattern is the
escaped backslash plus `n`), not the newline character; an intro holding
a real newline is printed with the newline intact, against the spec's
one-visual-line rule, while an intro holding a literal backslash-n text
is the one that gets a space. -/
theorem intro_preview_literal_backslash_n :
    introPreview "line1\nline2" = "line1\nline2"
    ∧ introPreview "a\x5cnb" = "a b"
    ∧ claimedIntroPreview "line1\nline2" = "line1 line2"
    ∧ ("line1\nline2" : String) ≠ "line1 line2" :=
  ⟨rfl, rfl, rfl, by decide⟩

/-- C7: the simplifier is exactly the ordered composition of the rewrite
passes (join, entity decode, script/style removal, br to newline, block
close tags to newline, tag strip, trailing-horizontal-whitespace
collapse, newline-run collapse, trim); the spec's example evaluates to
`"Hi\nthere"`, and the empty and null fragment sequences give `""`. -/
theorem simplify_pipeline_order_and_examples :
    (∀ ps : List JVal, _simplify_html (.arr ps)
        = .ok (String.mk (pyStripChars (nlCollapse (hwsPass (stripTags (closersPass (brPass
            (stripScriptStyle (unescapeEntities (joinFrags ps).data))))))))))
    ∧ _simplify_html (.arr [.str "<p>Hi<br>there</p><script>evil()</script>"]) = .ok "Hi\nthere"
    ∧ _simplify_html (.arr []) = .ok ""
    ∧ _simplify_html .null = .ok "" := by
  refine ⟨?_, rfl, rfl, rfl⟩
  intro ps
  cases ps with
  | nil => rfl
  | cons p ps => rfl

/-- C8: `formatAddress` renders `"{name} <{address}>"` when both fields
are non-empty (truthy), the single present field's value alone when only
one is, a bare string unchanged, and the empty string for everything
else (null, empty mapping, mapping with both fields empty, non-string
non-mapping). -/
theorem format_address_cases :
    (∀ kvs name email,
      name = pyOr (jGet (.obj kvs) "name") (.str "") →
      email = pyOr (jGet (.obj kvs) "address") (.str "") →
      ((truthy name = true → truthy email = true →
          _format_address (.obj kvs) = .str (fstr name ++ " <" ++ fstr email ++ ">"))
       ∧ (truthy name = true → truthy email = false →
          _format_address (.obj kvs) = name)
       ∧ (truthy name = false → truthy email = true →
          _format_address (.obj kvs) = email)
       ∧ (truthy name = false → truthy email = false →
          _format_address (.obj kvs) = .str "")))
    ∧ (∀ s, _format_address (.str s) = .str s)
    ∧ (_format_address .null = .str "")
    ∧ (∀ b, _format_address (.bool b) = .str "")
    ∧ (∀ n, _format_address (.num n) = .str "")
    ∧ (∀ xs, _format_address (.arr xs) = .str "") := by
  refine ⟨?_, fun s => rfl, rfl, fun b => rfl, fun n => rfl, fun xs => rfl⟩
  intro kvs name email hn he
  have hfa : _format_address (.obj kvs)
      = if truthy name && truthy email then
          .str (fstr name ++ " <" ++ fstr email ++ ">")
        else pyOr email name := by
    rw [_format_address, hn, he]
  refine ⟨?_, ?_, ?_, ?_⟩
  · intro h1 h2
    rw [hfa, if_pos (by rw [h1, h2]; rfl)]
  · intro h1 h2
    rw [hfa, if_neg (by rw [h1, h2]; decide), pyOr, if_neg (by rw [h2]; decide)]
  · intro h1 h2
    rw [hfa, if_neg (by rw [h1]; simp), pyOr, if_pos h2]
  · intro h1 h2
    rw [hfa, if_neg (by rw [h1]; simp), pyOr, if_neg (by rw [h2]; decide)]
    rw [hn] at h1 ⊢
    exact pyOr_default_empty _ h1

/-- C8 (witness): the claim's concrete vectors. -/
theorem format_address_cases_witness :
    _format_address (.obj [("name", .str "Bob"), ("address", .str "b@x.com")])
      = .str "Bob <b@x.com>"
    ∧ _format_address (.obj [("address", .str "b@x.com")]) = .str "b@x.com" := by
  constructor
  · have h := ((format_address_cases.1 [("name", .str "Bob"), ("address", .str "b@x.com")]
      _ _ rfl rfl).1) rfl rfl
    exact h.trans (by rfl)
  · have h := ((format_address_cases.1 [("address", .str "b@x.com")]
      _ _ rfl rfl).2.2.1) rfl rfl
    exact h.trans (by rfl)

/-- C9 (counterexample): `formatAddressList` does not return a string
for every sequence input: when an element's address field holds a
number, the element formats to that number and the final `join` raises
`TypeError`. -/
theorem format_address_list_nonstring_raises :
    _format_address_list (.arr [.obj [("address", .num 5)]]) = .error () := rfl

/-- C9 (amended): `formatAddressList` returns `""` for null and for
non-mapping, non-string, non-sequence inputs; treats a single mapping or
string as a one-element list; and for a sequence formats the elements,
drops the falsy results, and joins the rest with `", "` — succeeding
exactly when every kept result is a string, and raising otherwise. -/
theorem format_address_list_characterization :
    _format_address_list .null = .ok ""
    ∧ (∀ b, _format_address_list (.bool b) = .ok "")
    ∧ (∀ n, _format_address_list (.num n) = .ok "")
    ∧ (∀ kvs, _format_address_list (.obj kvs) = _format_address_list (.arr [.obj kvs]))
    ∧ (∀ s : String, _format_address_list (.str s) = _format_address_list (.arr [.str s]))
    ∧ (∀ xs, collectParts xs = (xs.map _format_address).filter truthy)
    ∧ (∀ xs ss, allStrings (collectParts xs) = some ss →
        _format_address_list (.arr xs) = .ok (joinWith ", " ss)) := by
  refine ⟨rfl, fun b => rfl, fun n => rfl, fun kvs => rfl, fun s => rfl, ?_, ?_⟩
  · intro xs
    induction xs with
    | nil => rfl
    | cons a rest ih =>
      rw [collectParts, List.map_cons, List.filter_cons]
      by_cases h : truthy (_format_address a)
      · rw [if_pos h, if_pos h, ih]
      · rw [if_neg h, if_neg h, ih]
  · intro xs ss h
    show joinPyStrs (collectParts xs) = _
    rw [joinPyStrs, h]

/-- C9 (witness): the claim's concrete vector. -/
theorem format_address_list_characterization_witness :
    _format_address_list (.arr [.obj [("address", .str "a@x")], .obj [("address", .str "b@x")]])
      = .ok "a@x, b@x" :=
  (format_address_list_characterization.2.2.2.2.2.2
    [.obj [("address", .str "a@x")], .obj [("address", .str "b@x")]]
    ["a@x", "b@x"] rfl).trans (by rfl)

/-- C10: attachment metadata lines are printed only under a truthy
`hasAttachments`: with the flag falsy or absent nothing is printed even
when the attachment sequence is non-empty, and with the flag truthy the
non-mapping entries of the sequence are skipped. -/
theorem attachment_lines_gated_by_flag :
    (∀ full, truthy (jGet full "hasAttachments") = false →
        attachmentEntries full = .ok [])
    ∧ (∀ full xs, truthy (jGet full "hasAttachments") = true →
        pyOr (jGet full "attachments") (.arr []) = .arr xs →
        attachmentEntries full
          = .ok (xs.filter (fun a => match a with | .obj _ => true | _ => false))) := by
  constructor
  · intro full h
    rw [attachmentEntries, if_neg (by rw [h]; decide)]
  · intro full xs h1 h2
    rw [attachmentEntries, if_pos h1, h2]

/-- C10 (witness): a record with a non-empty attachment list but no
`hasAttachments` flag prints nothing; a flagged record keeps only the
mapping entries. -/
theorem attachment_lines_gated_by_flag_witness :
    attachmentEntries (.obj [("attachments", .arr [.obj [("id", .str "1")]])]) = .ok []
    ∧ attachmentEntries (.obj [("hasAttachments", .bool true),
        ("attachments", .arr [.obj [("id", .str "1")], .str "junk"])])
      = .ok [.obj [("id", .str "1")]] := by
  constructor
  · exact attachment_lines_gated_by_flag.1 _ rfl
  · exact (attachment_lines_gated_by_flag.2
      (.obj [("hasAttachments", .bool true),
        ("attachments", .arr [.obj [("id", .str "1")], .str "junk"])])
      [.obj [("id", .str "1")], .str "junk"] rfl rfl).trans (by rfl)

/-- Whether `print_message` chooses the plain-text branch:
`isinstance(body_text, str) and body_text.strip()` is truthy. -/
def textChosen (full : JVal) : Bool :=
  match jGet full "text" with
  | .str s => pyStrip s != ""
  | _ => false

theorem bodySection_eq_fallback (full : JVal) (h : textChosen full = false) :
    bodySection full = fallbackHtml full := by
  rw [bodySection.eq_def]
  cases hj : jGet full "text" with
  | str s =>
    have hs : pyStrip s = "" := by
      rw [textChosen.eq_def, hj] at h
      simpa using h
    simp [hs]
  | null => rfl
  | bool b => rfl
  | num n => rfl
  | arr xs => rfl
  | obj kvs => rfl

theorem pyOr_arr_nil (xs : List JVal) : pyOr (.arr xs) (.arr []) = .arr xs := by
  cases xs with
  | nil => rfl
  | cons x xs => rfl

/-- C5: body selection in `print_message`.  A string text body with a
non-empty strip is printed (stripped) as the text body; otherwise, with
the html field an ordered fragment sequence (or absent, per the data
model), the simplified HTML body is printed exactly when simplification
gives a non-empty string; otherwise the renderer reports no content and
never prints an empty body section. -/
theorem body_selection_rule :
    ∀ full : JVal,
      ((∀ s, jGet full "text" = .str s → pyStrip s ≠ "" →
          bodySection full = .ok (.textBody (pyStrip s)))
       ∧ (textChosen full = false → ∀ xs t, jGet full "html" = .arr xs →
            _simplify_html (.arr xs) = .ok t → t ≠ "" →
            bodySection full = .ok (.htmlBody t))
       ∧ (textChosen full = false → jGet full "html" = .null →
            bodySection full = .ok .noBody)
       ∧ (textChosen full = false → ∀ xs, jGet full "html" = .arr xs →
            _simplify_html (.arr xs) = .ok "" →
            bodySection full = .ok .noBody)) := by
  intro full
  refine ⟨?_, ?_, ?_, ?_⟩
  · intro s hs hne
    rw [bodySection.eq_def, hs]
    simp [hne]
  · intro ht xs t hh hsim hne
    rw [bodySection_eq_fallback full ht, fallbackHtml, hh, pyOr_arr_nil]
    cases xs with
    | nil => exact absurd (Except.ok.inj hsim).symm hne
    | cons x xs =>
      rw [if_pos (show truthy (.arr (x :: xs)) = true from rfl), hsim]
      simp [hne]
  · intro ht hh
    rw [bodySection_eq_fallback full ht, fallbackHtml, hh]
    rfl
  · intro ht xs hh hsim
    rw [bodySection_eq_fallback full ht, fallbackHtml, hh, pyOr_arr_nil]
    cases xs with
    | nil => rfl
    | cons x xs =>
      rw [if_pos (show truthy (.arr (x :: xs)) = true from rfl), hsim]
      rfl

/-- C5 (witness): a record whose text body is whitespace-padded prints
the stripped text; a record with only an html fragment prints the
simplified body; a record with neither reports no content. -/
theorem body_selection_rule_witness :
    bodySection (.obj [("text", .str " hi ")]) = .ok (.textBody "hi")
    ∧ bodySection (.obj [("html", .arr [.str "<p>x</p>"])]) = .ok (.htmlBody "x")
    ∧ bodySection (.obj []) = .ok .noBody := by
  refine ⟨?_, ?_, ?_⟩
  · exact ((body_selection_rule (.obj [("text", .str " hi ")])).1 " hi " rfl
      (by decide)).trans (by rfl)
  · exact ((body_selection_rule (.obj [("html", .arr [.str "<p>x</p>"])])).2.1 rfl
      [.str "<p>x</p>"] "x" rfl rfl (by decide)).trans (by rfl)
  · exact (body_selection_rule (.obj [])).2.2.1 rfl rfl

/-- C2 (counterexample): the core layer is not exception-free for every
input.  The descending sort raises `TypeError` on the claim's own
example: items whose `createdAt` keys are a number and a string cannot
be compared by Python `<`. -/
theorem sort_mixed_createdAt_raises :
    _sort_desc_by_created
      [.obj [("createdAt", .num 1)], .obj [("createdAt", .str "2024-01-01T00:00:00Z")]]
      = .error () := rfl

/-- C2 (amended): on the documented input shapes each operation is
total: the sort succeeds when every item is a mapping whose computed key
is a string (string `createdAt`, or missing/falsy defaulting to `""`);
HTML simplification succeeds on every fragment sequence and on every
falsy input; address-list formatting succeeds whenever the kept
formatted parts are strings.  (Collection normalization and single
address formatting contain no raising operation and are modelled as
total functions outright.) -/
theorem core_layer_totality_on_documented_shapes :
    (∀ items : List JVal, goodItems items →
        ∃ ys, _sort_desc_by_created items = .ok ys)
    ∧ (∀ ps : List JVal, ∃ s, _simplify_html (.arr ps) = .ok s)
    ∧ (∀ v : JVal, truthy v = false → _simplify_html v = .ok "")
    ∧ (∀ xs ss, allStrings (collectParts xs) = some ss →
        ∃ s, _format_address_list (.arr xs) = .ok s) := by
  refine ⟨?_, ?_, ?_, ?_⟩
  · intro items h
    exact ⟨_, sort_ok_of_good items h⟩
  · intro ps
    cases ps with
    | nil => exact ⟨"", rfl⟩
    | cons p ps => exact ⟨_, rfl⟩
  · intro v hv
    unfold _simplify_html
    rw [hv]
    rfl
  · intro xs ss h
    refine ⟨joinWith ", " ss, ?_⟩
    show joinPyStrs (collectParts xs) = _
    rw [joinPyStrs, h]

/-- C2 (witness): totality instances at concrete inputs: a two-item
listing with a string and a missing `createdAt`, and a one-element
address list. -/
theorem core_layer_totality_witness :
    (∃ ys, _sort_desc_by_created [.obj [("createdAt", .str "b")], .obj []] = .ok ys)
    ∧ (∃ s, _format_address_list (.arr [.str "a@x"]) = .ok s) := by
  constructor
  · apply core_layer_totality_on_documented_shapes.1
    intro m hm
    simp only [List.mem_cons, List.not_mem_nil, or_false] at hm
    rcases hm with rfl | rfl
    · exact ⟨⟨_, rfl⟩, ⟨"b", rfl⟩⟩
    · exact ⟨⟨_, rfl⟩, ⟨"", rfl⟩⟩
  · exact core_layer_totality_on_documented_shapes.2.2.2 [.str "a@x"] ["a@x"] rfl

theorem sKey_pair (m : JVal) : sKey (keyOf m, m) = keyStr m := rfl

theorem mem_keyed_shape {items : List JVal} {p : JVal × JVal}
    (hp : p ∈ items.map (fun m => (keyOf m, m))) :
    p = (keyOf p.2, p.2) ∧ p.2 ∈ items := by
  obtain ⟨m, hm, rfl⟩ := List.mem_map.mp hp
  exact ⟨rfl, hm⟩

/-- Filtering by a property that forces pairwise descending-equality
commutes with the insertion sort (the stability core). -/
theorem insertionSort_filter_eq (keyed : List (JVal × JVal)) (q : JVal × JVal → Bool)
    (hq : ∀ p ∈ keyed, q p = true → ∀ p2 ∈ keyed, q p2 = true → rGe p p2) :
    (List.insertionSort rGe keyed).filter q = keyed.filter q := by
  have hc1 : List.Sublist (keyed.filter q) keyed := List.filter_sublist keyed
  have hpair : (keyed.filter q).Pairwise rGe := by
    apply List.pairwise_of_forall_mem_list
    intro a ha b hb
    rw [List.mem_filter] at ha hb
    exact hq a ha.1 ha.2 b hb.1 hb.2
  have hsub : List.Sublist (keyed.filter q) (List.insertionSort rGe keyed) :=
    List.sublist_insertionSort hpair hc1
  have hself : (keyed.filter q).filter q = keyed.filter q :=
    List.filter_eq_self.mpr (fun a ha => (List.mem_filter.mp ha).2)
  have hsub2 : List.Sublist (keyed.filter q) ((List.insertionSort rGe keyed).filter q) := by
    have := List.Sublist.filter q hsub
    rwa [hself] at this
  have hperm : List.Perm ((List.insertionSort rGe keyed).filter q) (keyed.filter q) :=
    (List.perm_insertionSort rGe keyed).filter q
  exact (List.Sublist.eq_of_length hsub2 hperm.length_eq.symm).symm

/-- C6: on items of the documented shape (mappings with string or
missing/falsy `createdAt`), the sort is stable (the items carrying any
fixed key keep their input order), returns an already-descending list
unchanged, is idempotent, and treats a missing `createdAt` as the empty
string. -/
theorem sort_desc_stable_idempotent :
    ∀ items : List JVal, goodItems items →
      ((∀ ys, _sort_desc_by_created items = .ok ys →
          (∀ k : String, ys.filter (fun m => keyStr m == k)
              = items.filter (fun m => keyStr m == k))
          ∧ _sort_desc_by_created ys = .ok ys)
       ∧ (items.Pairwise (fun a b => keyStr b ≤ keyStr a) →
            _sort_desc_by_created items = .ok items)
       ∧ (∀ kvs, lookupField kvs "createdAt" = none →
            keyOf (.obj kvs) = .str "")) := by
  intro items h
  have hok := sort_ok_of_good items h
  refine ⟨?_, ?_, ?_⟩
  · intro ys hys
    have hys2 : ys = (List.insertionSort rGe
        (items.map (fun m => (keyOf m, m)))).map Prod.snd :=
      Except.ok.inj (hys.symm.trans hok)
    constructor
    · intro k
      subst hys2
      rw [List.filter_map]
      have hq : ∀ p ∈ items.map (fun m => (keyOf m, m)),
          ((fun m => keyStr m == k) ∘ Prod.snd) p = true →
          ∀ p2 ∈ items.map (fun m => (keyOf m, m)),
          ((fun m => keyStr m == k) ∘ Prod.snd) p2 = true → rGe p p2 := by
        intro p hp hqp p2 hp2 hqp2
        have e1 : sKey p = k := by
          rw [(mem_keyed_shape hp).1, sKey_pair]
          exact eq_of_beq hqp
        have e2 : sKey p2 = k := by
          rw [(mem_keyed_shape hp2).1, sKey_pair]
          exact eq_of_beq hqp2
        show sKey p2 ≤ sKey p
        rw [e1, e2]
      rw [insertionSort_filter_eq _ _ hq, List.filter_map, List.map_map]
      have hid : ∀ m ∈ items.filter
          (((fun m => keyStr m == k) ∘ Prod.snd) ∘ (fun m => (keyOf m, m))),
          (Prod.snd ∘ (fun m => (keyOf m, m))) m = m := fun m _ => rfl
      rw [List.map_congr_left hid, List.map_id']
      rfl
    · have hgood2 : goodItems ys := by
        intro m hm
        rw [hys2] at hm
        obtain ⟨pr, hpr, rfl⟩ := List.mem_map.mp hm
        have hpr2 := (List.mem_insertionSort rGe).mp hpr
        exact h pr.2 (mem_keyed_shape hpr2).2
      have hok2 := sort_ok_of_good ys hgood2
      have hmapeq : ys.map (fun m => (keyOf m, m))
          = List.insertionSort rGe (items.map (fun m => (keyOf m, m))) := by
        rw [hys2, List.map_map]
        have hid : ∀ pr ∈ List.insertionSort rGe (items.map (fun m => (keyOf m, m))),
            ((fun m => (keyOf m, m)) ∘ Prod.snd) pr = pr := by
          intro pr hpr
          exact ((mem_keyed_shape ((List.mem_insertionSort rGe).mp hpr)).1).symm
        rw [List.map_congr_left hid, List.map_id']
      rw [hok2, hmapeq]
      have hsorted : List.Sorted rGe (List.insertionSort rGe
          (items.map (fun m => (keyOf m, m)))) :=
        List.sorted_insertionSort rGe _
      rw [hsorted.insertionSort_eq, hys2]
  · intro hs
    rw [hok]
    have hpairs : (items.map (fun m => (keyOf m, m))).Pairwise rGe :=
      hs.map _ (fun a b hab => hab)
    have heq : List.insertionSort rGe (items.map (fun m => (keyOf m, m)))
        = items.map (fun m => (keyOf m, m)) :=
      List.Sorted.insertionSort_eq hpairs
    rw [heq, List.map_map]
    have hid : ∀ m ∈ items, (Prod.snd ∘ (fun m => (keyOf m, m))) m = m := fun m _ => rfl
    rw [List.map_congr_left hid, List.map_id']
  · intro kvs hkv
    rw [keyOf, sortKey, hkv]
    rfl

/-- C6 (witness): two items with equal keys (the tie case) come back in
input order, unchanged — the sort of an already-descending list is the
list itself. -/
theorem sort_desc_stable_idempotent_witness :
    _sort_desc_by_created
      [.obj [("createdAt", .str "x"), ("id", .str "first")],
       .obj [("createdAt", .str "x"), ("id", .str "second")]]
      = .ok [.obj [("createdAt", .str "x"), ("id", .str "first")],
             .obj [("createdAt", .str "x"), ("id", .str "second")]] := by
  apply (sort_desc_stable_idempotent _ ?_).2.1 ?_
  · intro m hm
    simp only [List.mem_cons, List.not_mem_nil, or_false] at hm
    rcases hm with rfl | rfl
    · exact ⟨⟨_, rfl⟩, ⟨"x", rfl⟩⟩
    · exact ⟨⟨_, rfl⟩, ⟨"x", rfl⟩⟩
  · refine List.Pairwise.cons ?_ (List.pairwise_singleton _ _)
    intro b hb
    rw [List.mem_singleton] at hb
    subst hb
    exact le_refl _

/-- The claim's description of the round-trip result: the text trimmed,
with every run of three or more newlines collapsed to exactly two. -/
def trimCollapse (s : String) : String :=
  String.mk (pyStripChars (nlCollapse s.data))

/-- Whether the text has a horizontal-whitespace character immediately
followed by a newline (the shape rewritten by pass 7). -/
def hasHwsNl : List Char → Bool
  | [] => false
  | [_] => false
  | a :: b :: rest => (isHT a && isNl b) || hasHwsNl (b :: rest)

theorem unescapeEntitiesF_id (fuel : Nat) (l : List Char) (hf : l.length ≤ fuel)
    (h : '&' ∉ l) : unescapeEntitiesF fuel l = l := by
  induction fuel generalizing l with
  | zero => rfl
  | succ fuel ih =>
    cases l with
    | nil => rfl
    | cons c cs =>
      have h1 : ¬ (c = '&') := by
        intro hc; apply h; rw [← hc]; exact List.mem_cons_self c cs
      have h2 : '&' ∉ cs := fun hm => h (List.mem_cons_of_mem c hm)
      have hf2 : cs.length ≤ fuel := by simp only [List.length_cons] at hf; omega
      rw [unescapeEntitiesF, if_neg h1, ih cs hf2 h2]

theorem stripScriptStyleF_id (fuel : Nat) (l : List Char) (hf : l.length ≤ fuel)
    (h : '<' ∉ l) : stripScriptStyleF fuel l = l := by
  induction fuel generalizing l with
  | zero => rfl
  | succ fuel ih =>
    cases l with
    | nil => rfl
    | cons c cs =>
      have h1 : ¬ (c = '<') := by
        intro hc; apply h; rw [← hc]; exact List.mem_cons_self c cs
      have h2 : '<' ∉ cs := fun hm => h (List.mem_cons_of_mem c hm)
      have hf2 : cs.length ≤ fuel := by simp only [List.length_cons] at hf; omega
      rw [stripScriptStyleF, if_neg h1, ih cs hf2 h2]

theorem brPassF_id (fuel : Nat) (l : List Char) (hf : l.length ≤ fuel)
    (h : '<' ∉ l) : brPassF fuel l = l := by
  induction fuel generalizing l with
  | zero => rfl
  | succ fuel ih =>
    cases l with
    | nil => rfl
    | cons c cs =>
      have h1 : ¬ (c = '<') := by
        intro hc; apply h; rw [← hc]; exact List.mem_cons_self c cs
      have h2 : '<' ∉ cs := fun hm => h (List.mem_cons_of_mem c hm)
      have hf2 : cs.length ≤ fuel := by simp only [List.length_cons] at hf; omega
      rw [brPassF, if_neg h1, ih cs hf2 h2]

theorem closersPassF_id (fuel : Nat) (l : List Char) (hf : l.length ≤ fuel)
    (h : '<' ∉ l) : closersPassF fuel l = l := by
  induction fuel generalizing l with
  | zero => rfl
  | succ fuel ih =>
    cases l with
    | nil => rfl
    | cons c cs =>
      have h1 : ¬ (c = '<') := by
        intro hc; apply h; rw [← hc]; exact List.mem_cons_self c cs
      have h2 : '<' ∉ cs := fun hm => h (List.mem_cons_of_mem c hm)
      have hf2 : cs.length ≤ fuel := by simp only [List.length_cons] at hf; omega
      rw [closersPassF, if_neg h1, ih cs hf2 h2]

theorem stripTagsF_id (fuel : Nat) (l : List Char) (hf : l.length ≤ fuel)
    (h : '<' ∉ l) : stripTagsF fuel l = l := by
  induction fuel generalizing l with
  | zero => rfl
  | succ fuel ih =>
    cases l with
    | nil => rfl
    | cons c cs =>
      have h1 : ¬ (c = '<') := by
        intro hc; apply h; rw [← hc]; exact List.mem_cons_self c cs
      have h2 : '<' ∉ cs := fun hm => h (List.mem_cons_of_mem c hm)
      have hf2 : cs.length ≤ fuel := by simp only [List.length_cons] at hf; omega
      rw [stripTagsF, if_neg h1, ih cs hf2 h2]

theorem hasHwsNl_tail {c : Char} {cs : List Char} (h : hasHwsNl (c :: cs) = false) :
    hasHwsNl cs = false := by
  cases cs with
  | nil => rfl
  | cons b rest =>
    rw [hasHwsNl, Bool.or_eq_false_iff] at h
    exact h.2

theorem hasHwsNl_dropWhile (p : Char → Bool) :
    ∀ l : List Char, hasHwsNl l = false → hasHwsNl (l.dropWhile p) = false := by
  intro l
  induction l with
  | nil => intro h; exact h
  | cons c cs ih =>
    intro h
    rw [List.dropWhile_cons]
    by_cases hp : p c
    · rw [if_pos hp]
      exact ih (hasHwsNl_tail h)
    · rw [if_neg hp]
      exact h

theorem dropWhile_ht_no_nl :
    ∀ (cs : List Char) (c : Char), isHT c = true → hasHwsNl (c :: cs) = false →
    ∀ r, List.dropWhile isHT (c :: cs) ≠ '\n' :: r := by
  intro cs
  induction cs with
  | nil =>
    intro c hc _ r
    rw [List.dropWhile_cons_of_pos hc]
    intro heq
    cases heq
  | cons b rest ih =>
    intro c hc h r
    rw [List.dropWhile_cons_of_pos hc]
    have hor : (isHT c && isNl b) = false ∧ hasHwsNl (b :: rest) = false := by
      rw [hasHwsNl, Bool.or_eq_false_iff] at h
      exact h
    by_cases hb : isHT b
    · exact ih b hb hor.2 r
    · rw [List.dropWhile_cons_of_neg hb]
      intro heq
      have hb2 : b = '\n' := by injection heq
      have : isNl b = true := by rw [hb2]; rfl
      rw [hc, this] at hor
      simp at hor

theorem hwsPassF_id (fuel : Nat) (l : List Char) (hf : l.length ≤ fuel)
    (h : hasHwsNl l = false) : hwsPassF fuel l = l := by
  induction fuel generalizing l with
  | zero => rfl
  | succ fuel ih =>
    cases l with
    | nil => rfl
    | cons c cs =>
      have hf2 : cs.length ≤ fuel := by simp only [List.length_cons] at hf; omega
      by_cases hc : isHT c
      · rw [hwsPassF, if_pos hc]
        have hne := dropWhile_ht_no_nl cs c hc h
        split
        · next r heq => exact absurd heq (hne r)
        · next =>
          have hrest : List.dropWhile isHT (c :: cs) = List.dropWhile isHT cs :=
            List.dropWhile_cons_of_pos hc
          have hlen : (List.dropWhile isHT (c :: cs)).length ≤ fuel := by
            rw [hrest]
            exact le_trans (length_dropWhile_le isHT cs) hf2
          have hhws : hasHwsNl (List.dropWhile isHT (c :: cs)) = false := by
            rw [hrest]
            exact hasHwsNl_dropWhile isHT cs (hasHwsNl_tail h)
          rw [ih _ hlen hhws, List.takeWhile_append_dropWhile]
      · rw [hwsPassF, if_neg hc, ih cs hf2 (hasHwsNl_tail h)]

/-- C4 (counterexample): simplifying already-plain text is not just
trim-and-collapse: pass 7 also deletes horizontal whitespace that sits
immediately before a newline, so `"a \nb"` comes back as `"a\nb"`,
not as the claim's `"a \nb"`. -/
theorem simplify_plain_text_not_identity :
    _simplify_html (.arr [.str "a \nb"]) = .ok "a\nb"
    ∧ trimCollapse "a \nb" = "a \nb"
    ∧ ("a\nb" : String) ≠ "a \nb" :=
  ⟨rfl, rfl, by decide⟩

/-- C4 (amended): for a single plain-text fragment holding no `&` and no
`<` characters (so no entity references and nothing the tag passes can
touch) and no horizontal whitespace immediately before a newline,
simplify returns the text trimmed with every run of three or more
newlines collapsed to exactly two. -/
theorem simplify_plain_text_roundtrip :
    ∀ s : String, (∀ c ∈ s.data, c ≠ '&' ∧ c ≠ '<') → hasHwsNl s.data = false →
      _simplify_html (.arr [.str s]) = .ok (trimCollapse s) := by
  intro s hc hh
  have hamp : '&' ∉ s.data := fun hm => (hc _ hm).1 rfl
  have hlt : '<' ∉ s.data := fun hm => (hc _ hm).2 rfl
  show Except.ok (String.mk (simplifyChars (joinFrags [.str s]).data)) = _
  have hjoin : joinFrags [.str s] = s := rfl
  rw [hjoin, simplifyChars]
  rw [unescapeEntities, unescapeEntitiesF_id _ _ le_rfl hamp]
  rw [stripScriptStyle, stripScriptStyleF_id _ _ le_rfl hlt]
  rw [brPass, brPassF_id _ _ le_rfl hlt]
  rw [closersPass, closersPassF_id _ _ le_rfl hlt]
  rw [stripTags, stripTagsF_id _ _ le_rfl hlt]
  rw [hwsPass, hwsPassF_id _ _ le_rfl hh]
  rfl

/-- C4 (witness): a plain text with a four-newline run comes back
trimmed and with the run collapsed to a blank line. -/
theorem simplify_plain_text_roundtrip_witness :
    _simplify_html (.arr [.str " hi\n\n\n\nthere "]) = .ok "hi\n\nthere" :=
  (simplify_plain_text_roundtrip " hi\n\n\n\nthere " (by decide) (by decide)).trans
    (by rfl)

end MailTm
